import Mathlib

/-!
Verification of the timestamp validator in `scripts/align.py`.

The script loads a transcript `{ "text", "language"?, "words" }` whose words
carry `start`/`end` times, runs a single forward pass that clamps overlapping
starts and drops words of non-positive duration, and assembles the result
object tagged `alignment_method = "whisperx"`.

Timestamps are Python floats; we model them as rationals.  Every branch of the
loop is decided by the sign of a difference (`gap < 0`, `duration <= 0`), and
IEEE-754 subtraction of two floats is negative (resp. non-positive) exactly
when the first operand is smaller (resp. not larger), so the control flow over
rationals coincides with the control flow over floats.

A raised exception (in particular the `IndexError` from `validated_words[-1]`
on an empty list) is modelled as `none`; file and JSON I/O is outside the
model, so `align_audio` takes the parsed transcript and returns the
`output_data` object it would write and return.
-/

/-- A word entry `{ "word": string, "start": number, "end": number }`. -/
structure Word where
  word : String
  start : ℚ
  «end» : ℚ
  deriving DecidableEq

/-- The parsed input transcript `{ "text", "language"?, "words" }`; the
`language` key may be absent, hence `Option`. -/
structure Transcript where
  text : String
  language : Option String
  words : List Word
  deriving DecidableEq

/-- The `output_data` object assembled at the end of `align_audio`. -/
structure AlignmentResult where
  text : String
  language : String
  words : List Word
  alignment_method : String
  deriving DecidableEq

/-- The validation loop of `align_audio`:
`for i, word in enumerate(transcription['words']): ...`.
The first argument is the remaining input, the second the current index `i`,
the third the accumulator `validated_words`.  For `i > 0` the loop reads
`validated_words[-1]` (modelled by `List.getLast?`); on an empty accumulator
Python raises `IndexError`, modelled by `none`.  If `gap < 0` the word's
start is clamped to the previous end (the `gap > 0.5` branch is `pass`, a
no-op, so it needs no case of its own); a word whose resulting duration is
`<= 0` is skipped, any other word is appended. -/
def goAlign : List Word → Nat → List Word → Option (List Word)
  | [], _, acc => some acc
  | w :: rest, 0, acc =>
      if w.«end» - w.start ≤ 0 then goAlign rest 1 acc
      else goAlign rest 1 (acc ++ [w])
  | w :: rest, i + 1, acc =>
      match acc.getLast? with
      | none => none
      | some prev =>
          let w1 := if w.start - prev.«end» < 0 then { w with start := prev.«end» } else w
          if w1.«end» - w1.start ≤ 0 then goAlign rest (i + 2) acc
          else goAlign rest (i + 2) (acc ++ [w1])
termination_by structural ws _ _ => ws

/-- The whole validation pass over a word list, starting at index `0` with an
empty `validated_words`. -/
def validateWords (ws : List Word) : Option (List Word) :=
  goAlign ws 0 []

/-- `align_audio` without the file I/O: validate the words and assemble
`output_data` with the original `text`, the `language` defaulted to `"en"`
when absent, and the constant `alignment_method = "whisperx"`.  `none` means
the Python function raises instead of returning. -/
def align_audio (transcription : Transcript) : Option AlignmentResult :=
  match validateWords transcription.words with
  | none => none
  | some validated_words =>
      some { text := transcription.text
             language := transcription.language.getD "en"
             words := validated_words
             alignment_method := "whisperx" }

/-- The invariant established by the validation pass: every surviving word has
positive duration, and consecutive surviving words do not overlap. -/
def WordsOK (l : List Word) : Prop :=
  (∀ w ∈ l, w.start < w.«end») ∧ List.Chain' (fun a b => a.«end» ≤ b.start) l

lemma wordsOK_nil : WordsOK [] := ⟨by simp, by simp⟩

lemma clamp_start_ge (w prev : Word) :
    prev.«end» ≤ (if w.start - prev.«end» < 0 then { w with start := prev.«end» } else w).start := by
  split
  · exact le_refl _
  · linarith [not_lt.mp (by assumption : ¬ w.start - prev.«end» < 0)]

lemma clamp_end_eq (w prev : Word) :
    (if w.start - prev.«end» < 0 then { w with start := prev.«end» } else w).«end» = w.«end» := by
  split <;> rfl

/-- The loop invariant: starting from an accumulator satisfying `WordsOK`
(which is empty whenever the index is `0`), any successful run of the loop
ends in a state satisfying `WordsOK`. -/
lemma goAlign_wordsOK :
    ∀ (ws : List Word) (i : Nat) (acc out : List Word),
      WordsOK acc → (i = 0 → acc = []) →
      goAlign ws i acc = some out → WordsOK out := by
  intro ws
  induction ws with
  | nil =>
      intro i acc out hacc _ hgo
      simp only [goAlign, Option.some.injEq] at hgo
      exact hgo ▸ hacc
  | cons w rest ih =>
      intro i acc out hacc h0 hgo
      cases i with
      | zero =>
          have hacc0 := h0 rfl
          subst hacc0
          simp only [goAlign] at hgo
          by_cases hd : w.«end» - w.start ≤ 0
          · rw [if_pos hd] at hgo
            exact ih 1 [] out hacc (by simp) hgo
          · rw [if_neg hd] at hgo
            have hw : w.start < w.«end» := by linarith [lt_of_not_le hd]
            refine ih 1 [w] out ⟨?_, by simp⟩ (by simp) (by simpa using hgo)
            intro x hx
            rw [List.mem_singleton] at hx
            exact hx ▸ hw
      | succ i =>
          cases hl : acc.getLast? with
          | none => simp only [goAlign, hl] at hgo; cases hgo
          | some prev =>
              simp only [goAlign, hl] at hgo
              by_cases hd :
                  (if w.start - prev.«end» < 0 then { w with start := prev.«end» } else w).«end» -
                    (if w.start - prev.«end» < 0 then { w with start := prev.«end» } else w).start ≤ 0
              · rw [if_pos hd] at hgo
                exact ih (i + 2) acc out hacc (by simp) hgo
              · rw [if_neg hd] at hgo
                refine ih (i + 2)
                  (acc ++ [if w.start - prev.«end» < 0 then { w with start := prev.«end» } else w])
                  out ⟨?_, ?_⟩ (by simp) hgo
                · intro x hx
                  rcases List.mem_append.mp hx with hx | hx
                  · exact hacc.1 x hx
                  · rw [List.mem_singleton] at hx
                    subst hx
                    linarith [lt_of_not_le hd]
                · refine List.chain'_append.mpr ⟨hacc.2, by simp, ?_⟩
                  intro x hx y hy
                  rw [hl, Option.mem_some_iff] at hx
                  simp only [List.head?_cons, Option.mem_some_iff] at hy
                  rw [← hx, ← hy]
                  exact clamp_start_ge w prev

/-- On a word list already satisfying the invariant, the loop clamps nothing
and drops nothing: it reproduces `acc ++ l` unchanged (provided the
accumulator is empty exactly when the index is `0`, as in every reachable
state). -/
lemma goAlign_fixed :
    ∀ (l acc : List Word) (i : Nat),
      WordsOK (acc ++ l) →
      (i = 0 → acc = []) → (0 < i → acc ≠ []) →
      goAlign l i acc = some (acc ++ l) := by
  intro l
  induction l with
  | nil => intro acc i _ _ _; simp [goAlign]
  | cons w rest ih =>
      intro acc i hOK h0 hpos
      cases i with
      | zero =>
          have hacc0 := h0 rfl
          subst hacc0
          simp only [List.nil_append] at hOK ⊢
          have hw : w.start < w.«end» := hOK.1 w (List.mem_cons_self w rest)
          simp only [goAlign]
          rw [if_neg (by linarith : ¬ w.«end» - w.start ≤ 0)]
          have hrec := ih [w] 1 (by simpa using hOK) (by simp) (by simp)
          simpa using hrec
      | succ i =>
          have hne : acc ≠ [] := hpos (Nat.succ_pos i)
          obtain ⟨prev, hl⟩ : ∃ p, acc.getLast? = some p := by
            cases hg : acc.getLast? with
            | none => exact absurd (List.getLast?_eq_none_iff.mp hg) hne
            | some p => exact ⟨p, rfl⟩
          have hpw : prev.«end» ≤ w.start := by
            have hsplit := (List.chain'_append.mp hOK.2).2.2
            exact hsplit prev (by rw [hl]; rfl) w rfl
          have hw : w.start < w.«end» := hOK.1 w (by simp)
          simp only [goAlign, hl]
          rw [if_neg (by linarith : ¬ w.start - prev.«end» < 0)]
          rw [if_neg (by linarith : ¬ w.«end» - w.start ≤ 0)]
          have hrec := ih (acc ++ [w]) (i + 2)
            (by simpa [List.append_assoc] using hOK) (by simp) (by simp)
          simpa [List.append_assoc] using hrec

/-- The loop never inspects the exact value of a positive index: any two
positive indices give the same behaviour. -/
lemma goAlign_pos_index :
    ∀ (ws acc : List Word) (i j : Nat),
      goAlign ws (i + 1) acc = goAlign ws (j + 1) acc := by
  intro ws
  induction ws with
  | nil => intro acc i j; rfl
  | cons w rest ih =>
      intro acc i j
      simp only [goAlign]
      cases acc.getLast? with
      | none => rfl
      | some prev =>
          dsimp only
          split <;> split <;> exact ih _ (i + 1) (j + 1)

/-- Destructing a successful run of `align_audio` into its parts. -/
lemma align_audio_some (t : Transcript) (r : AlignmentResult)
    (h : align_audio t = some r) :
    validateWords t.words = some r.words ∧ r.text = t.text ∧
      r.language = t.language.getD "en" ∧ r.alignment_method = "whisperx" := by
  unfold align_audio at h
  cases hv : validateWords t.words with
  | none => rw [hv] at h; cases h
  | some vw =>
      rw [hv] at h
      cases h
      exact ⟨rfl, rfl, rfl, rfl⟩

/-- C1: on every transcript for which `align_audio` returns a result, every
word in the output `words` sequence satisfies `start <= end`. -/
theorem align_audio_start_le_end (t : Transcript) (r : AlignmentResult)
    (h : align_audio t = some r) :
    ∀ w ∈ r.words, w.start ≤ w.«end» := by
  obtain ⟨hv, -, -, -⟩ := align_audio_some t r h
  intro w hw
  exact le_of_lt ((goAlign_wordsOK t.words 0 [] r.words wordsOK_nil (fun _ => rfl) hv).1 w hw)

/-- C2: on every transcript for which `align_audio` returns a result, any two
consecutive output words `a` then `b` satisfy `a.end <= b.start`. -/
theorem align_audio_no_overlap (t : Transcript) (r : AlignmentResult)
    (h : align_audio t = some r) :
    List.Chain' (fun a b => a.«end» ≤ b.start) r.words := by
  obtain ⟨hv, -, -, -⟩ := align_audio_some t r h
  exact (goAlign_wordsOK t.words 0 [] r.words wordsOK_nil (fun _ => rfl) hv).2

/-- C3 (code bug): `align_audio` does not complete on every syntactically
well-formed transcript.  On a transcript whose first word has `end <= start`
followed by a second word, the first word is dropped, and at index `1` the
loop evaluates `validated_words[-1]` on the empty list and raises
`IndexError` (modelled by `none`). -/
theorem align_audio_raises_on_malformed_first_word :
    align_audio ⟨"hello world", none, [⟨"hello", 1, 1⟩, ⟨"world", 2, 3⟩]⟩ = none := by
  norm_num [align_audio, validateWords, goAlign]

/-- C5: a word whose input timestamps satisfy `end <= start` never appears in
the output `words` sequence. -/
theorem degenerate_word_never_output (t : Transcript) (r : AlignmentResult) (w : Word)
    (h : align_audio t = some r) (hin : w ∈ t.words) (hw : w.«end» ≤ w.start) :
    w ∉ r.words := by
  obtain ⟨hv, -, -, -⟩ := align_audio_some t r h
  intro hmem
  exact absurd ((goAlign_wordsOK t.words 0 [] r.words wordsOK_nil (fun _ => rfl) hv).1 w hmem)
    (not_lt.mpr hw)

/-- C6: a dropped word does not advance the previous accepted end time: when
the word `d` at a positive index is dropped (its duration after clamping
against the last accepted word `prev` is non-positive, i.e.
`d.end <= max d.start prev.end`), the loop continues on the remaining words
with the accumulator unchanged, so the following word's gap is computed
against the same `prev.end`. -/
theorem dropped_word_preserves_prev_end (d : Word) (rest : List Word) (i : Nat)
    (acc : List Word) (prev : Word)
    (hlast : acc.getLast? = some prev)
    (hdrop : d.«end» ≤ max d.start prev.«end») :
    goAlign (d :: rest) (i + 1) acc = goAlign rest (i + 1) acc := by
  simp only [goAlign, hlast]
  have hd : (if d.start - prev.«end» < 0 then { d with start := prev.«end» } else d).«end» -
      (if d.start - prev.«end» < 0 then { d with start := prev.«end» } else d).start ≤ 0 := by
    by_cases hc : d.start - prev.«end» < 0
    · rw [if_pos hc]
      have hmax : max d.start prev.«end» = prev.«end» := max_eq_right (by linarith)
      rw [hmax] at hdrop
      simp only
      linarith
    · rw [if_neg hc]
      have hmax : max d.start prev.«end» = d.start := max_eq_left (by linarith [not_lt.mp hc])
      rw [hmax] at hdrop
      linarith
  rw [if_pos hd]
  exact goAlign_pos_index rest acc (i + 1) i

/-- C7: on input words `[{start:0,end:1},{start:0.9,end:2}]` the second
word's start is clamped to the first word's end, giving exactly
`[{start:0,end:1},{start:1,end:2}]` with both words retained (for any word
texts, transcript text and language). -/
theorem clamp_overlap_scenario (s : String) (lang : Option String) (t1 t2 : String) :
    align_audio ⟨s, lang, [⟨t1, 0, 1⟩, ⟨t2, 9/10, 2⟩]⟩ =
      some ⟨s, lang.getD "en", [⟨t1, 0, 1⟩, ⟨t2, 1, 2⟩], "whisperx"⟩ := by
  norm_num [align_audio, validateWords, goAlign]

/-- C8: the output `language` defaults to `"en"` when the input has no
`language` key and is passed through unchanged when it does. -/
theorem language_defaults_to_en (t : Transcript) (r : AlignmentResult)
    (h : align_audio t = some r) :
    (t.language = none → r.language = "en") ∧
      (∀ s, t.language = some s → r.language = s) := by
  obtain ⟨-, -, hlang, -⟩ := align_audio_some t r h
  constructor
  · intro hn
    rw [hlang, hn]
    rfl
  · intro s hs
    rw [hlang, hs]
    rfl

/-- C9: every successful `align_audio` run tags the output with the constant
`alignment_method = "whisperx"` and passes `text` and `language` through
(the language defaulted when absent); only the word sequence is transformed. -/
theorem output_metadata_passthrough (t : Transcript) (r : AlignmentResult)
    (h : align_audio t = some r) :
    r.alignment_method = "whisperx" ∧ r.text = t.text ∧
      r.language = t.language.getD "en" := by
  obtain ⟨-, ht, hlang, hm⟩ := align_audio_some t r h
  exact ⟨hm, ht, hlang⟩

/-- C10: whenever the first input word has `end <= start` (so it is dropped)
and at least one more word follows, the loop reaches index `1` with an empty
`validated_words`, evaluates `validated_words[-1]` on the empty list, and
`align_audio` raises `IndexError` (modelled by `none`) instead of repairing
or dropping the word: the overlap check is guarded by `i > 0`, not by the
existence of a previously accepted word. -/
theorem first_word_dropped_then_raises (t : Transcript) (w0 w1 : Word) (rest : List Word)
    (hws : t.words = w0 :: w1 :: rest) (h0 : w0.«end» ≤ w0.start) :
    align_audio t = none := by
  have hv : validateWords t.words = none := by
    unfold validateWords
    rw [hws]
    simp only [goAlign]
    rw [if_pos (by linarith : w0.«end» - w0.start ≤ 0)]
    simp [goAlign]
  unfold align_audio
  rw [hv]

/-- C4: the validation pass is idempotent: on the word sequence of any result
of `align_audio`, the pass clamps nothing and drops nothing, reproducing the
sequence unchanged; re-running `align_audio` on the output (with its language
now present) returns the identical result, including `text`, `language` and
`alignment_method`. -/
theorem align_audio_idempotent (t : Transcript) (r : AlignmentResult)
    (h : align_audio t = some r) :
    validateWords r.words = some r.words ∧
      align_audio ⟨r.text, some r.language, r.words⟩ = some r := by
  obtain ⟨hv, -, -, hm⟩ := align_audio_some t r h
  have hOK : WordsOK r.words :=
    goAlign_wordsOK t.words 0 [] r.words wordsOK_nil (fun _ => rfl) hv
  have hfix : validateWords r.words = some r.words := by
    unfold validateWords
    have hrun := goAlign_fixed r.words [] 0 (by simpa using hOK) (fun _ => rfl)
      (fun hlt => absurd hlt (lt_irrefl 0))
    simpa using hrun
  refine ⟨hfix, ?_⟩
  cases r with
  | mk tx lg ws am =>
      simp only at hm
      subst hm
      simp only [align_audio]
      rw [show validateWords (Transcript.words ⟨tx, some lg, ws⟩) = some ws from hfix]
      rfl

/-- Witness for C1 at a concrete transcript. -/
theorem align_audio_start_le_end_witness :
    align_audio ⟨"t", none, [⟨"a", 0, 1⟩, ⟨"b", 9/10, 2⟩]⟩ =
        some ⟨"t", "en", [⟨"a", 0, 1⟩, ⟨"b", 1, 2⟩], "whisperx"⟩ ∧
      ∀ w ∈ [(⟨"a", 0, 1⟩ : Word), ⟨"b", 1, 2⟩], w.start ≤ w.«end» :=
  ⟨by norm_num [align_audio, validateWords, goAlign],
   align_audio_start_le_end ⟨"t", none, [⟨"a", 0, 1⟩, ⟨"b", 9/10, 2⟩]⟩
     ⟨"t", "en", [⟨"a", 0, 1⟩, ⟨"b", 1, 2⟩], "whisperx"⟩
     (by norm_num [align_audio, validateWords, goAlign])⟩

/-- Witness for C2 at a concrete transcript. -/
theorem align_audio_no_overlap_witness :
    align_audio ⟨"t", none, [⟨"a", 0, 1⟩, ⟨"b", 9/10, 2⟩]⟩ =
        some ⟨"t", "en", [⟨"a", 0, 1⟩, ⟨"b", 1, 2⟩], "whisperx"⟩ ∧
      List.Chain' (fun a b => a.«end» ≤ b.start) [(⟨"a", 0, 1⟩ : Word), ⟨"b", 1, 2⟩] :=
  ⟨by norm_num [align_audio, validateWords, goAlign],
   align_audio_no_overlap ⟨"t", none, [⟨"a", 0, 1⟩, ⟨"b", 9/10, 2⟩]⟩
     ⟨"t", "en", [⟨"a", 0, 1⟩, ⟨"b", 1, 2⟩], "whisperx"⟩
     (by norm_num [align_audio, validateWords, goAlign])⟩

/-- Witness for C4 at a concrete transcript. -/
theorem align_audio_idempotent_witness :
    align_audio ⟨"t", none, [⟨"a", 0, 1⟩, ⟨"b", 9/10, 2⟩]⟩ =
        some ⟨"t", "en", [⟨"a", 0, 1⟩, ⟨"b", 1, 2⟩], "whisperx"⟩ ∧
      (validateWords [⟨"a", 0, 1⟩, ⟨"b", 1, 2⟩] = some [⟨"a", 0, 1⟩, ⟨"b", 1, 2⟩] ∧
        align_audio ⟨"t", some "en", [⟨"a", 0, 1⟩, ⟨"b", 1, 2⟩]⟩ =
          some ⟨"t", "en", [⟨"a", 0, 1⟩, ⟨"b", 1, 2⟩], "whisperx"⟩) :=
  ⟨by norm_num [align_audio, validateWords, goAlign],
   align_audio_idempotent ⟨"t", none, [⟨"a", 0, 1⟩, ⟨"b", 9/10, 2⟩]⟩
     ⟨"t", "en", [⟨"a", 0, 1⟩, ⟨"b", 1, 2⟩], "whisperx"⟩
     (by norm_num [align_audio, validateWords, goAlign])⟩

/-- Witness for C5 at a concrete transcript: the zero-duration second word is
absent from the output. -/
theorem degenerate_word_never_output_witness :
    align_audio ⟨"t", none, [⟨"a", 0, 1⟩, ⟨"b", 2, 2⟩]⟩ =
        some ⟨"t", "en", [⟨"a", 0, 1⟩], "whisperx"⟩ ∧
      (⟨"b", 2, 2⟩ : Word) ∈ [(⟨"a", 0, 1⟩ : Word), ⟨"b", 2, 2⟩] ∧
      (⟨"b", 2, 2⟩ : Word).«end» ≤ (⟨"b", 2, 2⟩ : Word).start ∧
      (⟨"b", 2, 2⟩ : Word) ∉ [(⟨"a", 0, 1⟩ : Word)] :=
  ⟨by norm_num [align_audio, validateWords, goAlign],
   by simp,
   le_refl _,
   degenerate_word_never_output ⟨"t", none, [⟨"a", 0, 1⟩, ⟨"b", 2, 2⟩]⟩
     ⟨"t", "en", [⟨"a", 0, 1⟩], "whisperx"⟩ ⟨"b", 2, 2⟩
     (by norm_num [align_audio, validateWords, goAlign]) (by simp) (le_refl _)⟩

/-- Witness for C6 at a concrete state: dropping the zero-duration word
`{start:1,end:1}` leaves the loop exactly as if the word were absent. -/
theorem dropped_word_preserves_prev_end_witness :
    ([(⟨"a", 0, 1⟩ : Word)].getLast? = some ⟨"a", 0, 1⟩ ∧
        (⟨"b", 1, 1⟩ : Word).«end» ≤ max (⟨"b", 1, 1⟩ : Word).start (⟨"a", 0, 1⟩ : Word).«end») ∧
      goAlign [⟨"b", 1, 1⟩, ⟨"c", 2, 3⟩] 1 [⟨"a", 0, 1⟩] =
        goAlign [⟨"c", 2, 3⟩] 1 [⟨"a", 0, 1⟩] :=
  ⟨⟨rfl, by norm_num⟩,
   dropped_word_preserves_prev_end ⟨"b", 1, 1⟩ [⟨"c", 2, 3⟩] 0 [⟨"a", 0, 1⟩] ⟨"a", 0, 1⟩
     rfl (by norm_num)⟩

/-- Witness for C8 at concrete transcripts. -/
theorem language_defaults_to_en_witness :
    align_audio ⟨"x", none, []⟩ = some ⟨"x", "en", [], "whisperx"⟩ ∧
      (((⟨"x", none, []⟩ : Transcript).language = none →
          (⟨"x", "en", [], "whisperx"⟩ : AlignmentResult).language = "en") ∧
        ∀ s, (⟨"x", none, []⟩ : Transcript).language = some s →
          (⟨"x", "en", [], "whisperx"⟩ : AlignmentResult).language = s) :=
  ⟨by norm_num [align_audio, validateWords, goAlign],
   language_defaults_to_en ⟨"x", none, []⟩ ⟨"x", "en", [], "whisperx"⟩
     (by norm_num [align_audio, validateWords, goAlign])⟩

/-- Witness for C9 at a concrete transcript with an explicit language. -/
theorem output_metadata_passthrough_witness :
    align_audio ⟨"y", some "de", [⟨"a", 0, 1⟩]⟩ =
        some ⟨"y", "de", [⟨"a", 0, 1⟩], "whisperx"⟩ ∧
      ((⟨"y", "de", [⟨"a", 0, 1⟩], "whisperx"⟩ : AlignmentResult).alignment_method = "whisperx" ∧
        (⟨"y", "de", [⟨"a", 0, 1⟩], "whisperx"⟩ : AlignmentResult).text =
          (⟨"y", some "de", [⟨"a", 0, 1⟩]⟩ : Transcript).text ∧
        (⟨"y", "de", [⟨"a", 0, 1⟩], "whisperx"⟩ : AlignmentResult).language =
          ((⟨"y", some "de", [⟨"a", 0, 1⟩]⟩ : Transcript).language).getD "en") :=
  ⟨by norm_num [align_audio, validateWords, goAlign],
   output_metadata_passthrough ⟨"y", some "de", [⟨"a", 0, 1⟩]⟩
     ⟨"y", "de", [⟨"a", 0, 1⟩], "whisperx"⟩
     (by norm_num [align_audio, validateWords, goAlign])⟩

/-- Witness for C10 at a concrete transcript whose first word has zero
duration and is followed by another word. -/
theorem first_word_dropped_then_raises_witness :
    ((⟨"w", none, [⟨"a", 2, 2⟩, ⟨"b", 3, 4⟩]⟩ : Transcript).words =
        ⟨"a", 2, 2⟩ :: ⟨"b", 3, 4⟩ :: [] ∧
      (⟨"a", 2, 2⟩ : Word).«end» ≤ (⟨"a", 2, 2⟩ : Word).start) ∧
      align_audio ⟨"w", none, [⟨"a", 2, 2⟩, ⟨"b", 3, 4⟩]⟩ = none :=
  ⟨⟨rfl, le_refl _⟩,
   first_word_dropped_then_raises ⟨"w", none, [⟨"a", 2, 2⟩, ⟨"b", 3, 4⟩]⟩
     ⟨"a", 2, 2⟩ ⟨"b", 3, 4⟩ [] rfl (le_refl _)⟩

/-- Witness for C7 at concrete word texts and transcript metadata. -/
theorem clamp_overlap_scenario_witness :
    align_audio ⟨"t", none, [⟨"a", 0, 1⟩, ⟨"b", 9/10, 2⟩]⟩ =
      some ⟨"t", "en", [⟨"a", 0, 1⟩, ⟨"b", 1, 2⟩], "whisperx"⟩ :=
  clamp_overlap_scenario "t" none "a" "b"
